import Mathlib

/-!
Verification of the Pagos hierarchy visualizer core: the hierarchy builder
and validator of `src/App.jsx` and the search / filter / expansion
controller of `src/HierarchyTree.jsx`, shallowly embedded over lists.

Modelling conventions:
* a CSV record is an association list from column name to cell string
  (JavaScript object with unique keys, insertion ordered);
* `undefined` results of JS member access are `Option.none`;
* `localeCompare`-based ordering is an abstract comparison parameter
  `lc : String → String → Bool`, read as `a.localeCompare b <= 0`;
  `Array.prototype.sort` (a stable comparison sort) is modelled by
  `List.insertionSort`;
* JS string helpers (`trim`, `toLowerCase`, `includes`) are modelled by
  executable functions over the underlying character lists;
* a JS object used as a string-keyed map is an association list with
  unique keys in insertion order.  The final sort of each sibling list
  makes every property proved here independent of the iteration order
  of the intermediate `groups` object.
-/

namespace Pagos

/-! ## JS string primitives -/

/-- Model of `String.prototype.trim`: drop leading and trailing whitespace. -/
def jsTrim (s : String) : String :=
  ⟨((s.data.dropWhile Char.isWhitespace).reverse.dropWhile Char.isWhitespace).reverse⟩

/-- Model of `String.prototype.toLowerCase` (ASCII case folding). -/
def jsLower (s : String) : String :=
  ⟨s.data.map Char.toLower⟩

/-- Check that `p` is a leading segment of `l`. -/
def listPref : List Char → List Char → Bool
  | [], _ => true
  | _ :: _, [] => false
  | a :: as, b :: bs => a == b && listPref as bs

/-- Check that `n` occurs contiguously inside `h`. -/
def listSub (n : List Char) (h : List Char) : Bool :=
  listPref n h ||
    match h with
    | [] => false
    | _ :: t => listSub n t

/-- Model of `hay.includes(needle)`. -/
def strIncludes (hay needle : String) : Bool :=
  listSub needle.data hay.data

/-- Code-unit comparison of character lists, strict less-than. -/
def listLt : List Char → List Char → Bool
  | [], [] => false
  | [], _ :: _ => true
  | _ :: _, [] => false
  | a :: as, b :: bs =>
    if a.toNat < b.toNat then true
    else if b.toNat < a.toNat then false
    else listLt as bs

/-- Model of the default JS string ordering (code-unit lexicographic `<=`). -/
def strLeB (a b : String) : Bool :=
  a == b || listLt a.data b.data

/-! ## Deduplication, as performed by `new Set(...)` (first occurrence kept) -/

def dedupAux (seen : List String) : List String → List String
  | [] => []
  | x :: t => if x ∈ seen then dedupAux seen t else x :: dedupAux (x :: seen) t

/-- Model of `[...new Set(xs)]`: distinct values in first-seen order. -/
def dedupFirst (xs : List String) : List String :=
  dedupAux [] xs

/-! ## Rows and the hierarchy node type -/

/-- A parsed CSV record: column name ↦ cell value, unique keys. -/
abbrev Row := List (String × String)

/-- Model of `row[col]` (JS member access, absent key gives `undefined`). -/
def rowGet (r : Row) (c : String) : Option String :=
  r.lookup c

/-- Tree node: either a leaf with its identifier list (`mids` in the source)
or a group with children; both carry a `count`. -/
inductive Node where
  | leaf (name : String) (mids : List String) (count : Nat)
  | group (name : String) (children : List Node) (count : Nat)

def Node.name : Node → String
  | .leaf n _ _ => n
  | .group n _ _ => n

def Node.count : Node → Nat
  | .leaf _ _ c => c
  | .group _ _ c => c

/- All nodes of a subtree / of a forest (the node itself included). -/
mutual
def nodeList : Node → List Node
  | .leaf n m c => [.leaf n m c]
  | .group n cs c => .group n cs c :: forestNodes cs
def forestNodes : List Node → List Node
  | [] => []
  | n :: t => nodeList n ++ forestNodes t
end

/- Identifiers of every leaf of a subtree / forest, concatenated in order:
one copy per leaf occurrence. -/
mutual
def subtreeMids : Node → List String
  | .leaf _ m _ => m
  | .group _ cs _ => forestMids cs
def forestMids : List Node → List String
  | [] => []
  | n :: t => subtreeMids n ++ forestMids t
end

/-- Leaves must carry duplicate-free identifier lists; trivial on groups. -/
def leafMidsNodup : Node → Prop
  | .leaf _ m _ => m.Nodup
  | .group _ _ _ => True

/-! ## Hierarchy builder (`buildHierarchy` in `src/App.jsx`) -/

/-- Grouping key of a row at a level column:
`row[level]?.trim() || '—'` (missing column, or value blank after
trimming, falls into the `"—"` sentinel group). -/
def rowKey (r : Row) (l : String) : String :=
  match rowGet r l with
  | some v => if jsTrim v = "" then "—" else jsTrim v
  | none => "—"

/-- Keys of the `groups` object, in first-occurrence order. -/
def groupKeys (rows : List Row) (l : String) : List String :=
  dedupFirst (rows.map (fun r => rowKey r l))

/-- Rows collected under one group key. -/
def rowsWithKey (rows : List Row) (l : String) (k : String) : List Row :=
  rows.filter (fun r => rowKey r l == k)

/-- One step of `row[midColumn]?.trim()` followed by `.filter(Boolean)`:
a trimmed non-empty identifier value, or nothing. -/
def idValue (c : String) (r : Row) : Option String :=
  match rowGet r c with
  | some v => if jsTrim v = "" then none else some (jsTrim v)
  | none => none

/-- Leaf construction at the last remaining level (both `midColumn` arms
of the source). -/
def leafNode (idc : Option String) (k : String) (grows : List Row) : Node :=
  match idc with
  | some c =>
    let mids := dedupFirst (grows.filterMap (idValue c))
    .leaf k mids mids.length
  | none => .leaf k [k] 1

/-- Sum of `child.count || 0` over a child list (`reduce` in the source). -/
def sumCounts (cs : List Node) : Nat :=
  cs.foldl (fun s c => s + c.count) 0

/-- Sibling order used by `nodes.sort((a, b) => a.name.localeCompare(b.name))`,
relative to the abstract comparison `lc`. -/
def nodeLe (lc : String → String → Bool) : Node → Node → Prop :=
  fun a b => lc a.name b.name = true

instance (lc : String → String → Bool) : DecidableRel (nodeLe lc) := by
  intro a b
  unfold nodeLe
  infer_instance

/-- Core of `buildHierarchy`, recursing on the remaining level columns. -/
def buildAux (lc : String → String → Bool) (idc : Option String) :
    List String → List Row → List Node
  | [], _ => []
  | l :: rest, rows =>
    if rows.isEmpty then []
    else
      let nodes := (groupKeys rows l).map (fun k =>
        let grows := rowsWithKey rows l k
        match rest with
        | [] => leafNode idc k grows
        | _ :: _ =>
          let cs := buildAux lc idc rest grows
          .group k cs (sumCounts cs))
      nodes.insertionSort (nodeLe lc)

/-- `buildHierarchy(rows, levels, midColumn)` of `src/App.jsx`. -/
def buildHierarchy (lc : String → String → Bool) (rows : List Row)
    (levels : List String) (idc : Option String) : List Node :=
  buildAux lc idc levels rows

/-- `memoizedHierarchyData` of `src/App.jsx`: `null` without rows or levels,
otherwise the synthetic `"All Accounts"` root wrapping the built forest. -/
def hierarchyRoot (lc : String → String → Bool) (rows : List Row)
    (levels : List String) (idc : Option String) : Option Node :=
  if rows.isEmpty || levels.isEmpty then none
  else
    let ns := buildHierarchy lc rows levels idc
    some (.group "All Accounts" ns (sumCounts ns))

/-! ## Validator (`validateMapping` and helpers in `src/App.jsx`) -/

/-- The `columnMappings` state object. -/
structure Mapping where
  levels : List String
  midColumn : Option String
  levelAliases : List (String × String)

/-- The optional MID column as a list, dropping the JS-falsy empty string
(`[..., midColumn].filter(Boolean)` keeps it only when truthy). -/
def midList (m : Mapping) : List String :=
  match m.midColumn with
  | some c => if c = "" then [] else [c]
  | none => []

/-- `hasDuplicateSelections`: truthy level selections plus the MID column
contain a repeated column name. -/
def hasDuplicateSelections (m : Mapping) : Bool :=
  let allSelections := m.levels.filter (fun s => !(s == "")) ++ midList m
  !(allSelections.length == (dedupFirst allSelections).length)

/-- Alias values of `levelAliases`, truthy ones only
(`Object.values(levelAliases).filter(Boolean)`). -/
def aliasVals (m : Mapping) : List String :=
  (m.levelAliases.map Prod.snd).filter (fun s => !(s == ""))

/-- `getDuplicateAliases`: alias values whose first occurrence is earlier
(`aliasValues.filter((a, i) => aliasValues.indexOf(a) !== i)`),
deduplicated. -/
def getDuplicateAliases (m : Mapping) : List String :=
  let vals := aliasVals m
  dedupFirst ((vals.enum.filter (fun p => !(vals.indexOf p.2 == p.1))).map Prod.snd)

/-- A cell is blank at a column when the column is missing or the value
trims to empty (`!row[col]?.trim()`). -/
def blankAt (r : Row) (c : String) : Bool :=
  match rowGet r c with
  | some v => jsTrim v == ""
  | none => true

/-- The `emptyValueCounts` entries: per mapped column (levels first, then
the MID column, each column once), the number of rows blank there, kept
only when positive. -/
def emptyValueEntries (rows : List Row) (m : Mapping) : List (String × Nat) :=
  (dedupFirst (m.levels ++ midList m)).filterMap (fun c =>
    let n := (rows.filter (fun r => blankAt r c)).length
    if n > 0 then some (c, n) else none)

/-- `validateMapping` of `src/App.jsx` as a pure function of the parsed
rows and the mapping; returns `(errors, warnings)`. -/
def validateMapping (parsedData : List Row) (m : Mapping) :
    List String × List String :=
  let errors :=
    (if m.levels.length = 0 then ["Select at least one level."] else []) ++
    (if hasDuplicateSelections m then ["Duplicate headers across levels or with MID."] else [])
  let duplicateAliases := getDuplicateAliases m
  let warnings :=
    (if duplicateAliases.length > 0 then
      ["Duplicate alias names may cause confusion in preview: " ++
        String.intercalate ", " duplicateAliases ++ "."]
     else []) ++
    (if parsedData.length > 0 ∧ m.levels.length > 0 then
      (emptyValueEntries parsedData m).map (fun p =>
        Nat.repr p.2 ++ " rows missing " ++ p.1 ++ "; grouped under '—'.")
     else [])
  (errors, warnings)

/-! ## Search matching and filtering (`src/HierarchyTree.jsx`) -/

/- Model of `nodeMatchesSearch(node, query)`: empty trimmed query matches
everything; otherwise case-insensitive substring match against the name,
then the identifiers of a leaf, then recursively the children of a group. -/
mutual
def nodeMatchesSearch (q : String) : Node → Bool
  | .leaf n mids _ =>
    if jsTrim q = "" then true
    else if strIncludes (jsLower n) (jsLower q) then true
    else mids.any (fun m => strIncludes (jsLower m) (jsLower q))
  | .group n cs _ =>
    if jsTrim q = "" then true
    else if strIncludes (jsLower n) (jsLower q) then true
    else anyNodeMatches q cs
def anyNodeMatches (q : String) : List Node → Bool
  | [] => false
  | n :: t => nodeMatchesSearch q n || anyNodeMatches q t
end

/- Model of the non-trivial branch of `filterHierarchy(nodes, query)`.
The source computes `nodes.filter(...).map(...)`; here the filter and map
are fused into one list recursion (`filterKeepMap`), with `keepNode` the
filter predicate and `mapNode` the mapping step.  The recursive calls
`filterHierarchy(node.children, query)` of the source are represented by
`filterKeepMap` directly: these helpers are only ever invoked while the
trimmed query is non-empty, where the two coincide. -/
mutual
def filterKeepMap : List Node → String → List Node
  | [], _ => []
  | n :: t, q => (if keepNode n q then [mapNode n q] else []) ++ filterKeepMap t q
def keepNode : Node → String → Bool
  | .leaf nm m c, q => nodeMatchesSearch q (.leaf nm m c)
  | .group nm cs c, q =>
    nodeMatchesSearch q (.group nm cs c) || decide ((filterKeepMap cs q).length > 0)
def mapNode : Node → String → Node
  | .leaf nm m c, _ => .leaf nm m c
  | .group nm cs c, q => .group nm (filterKeepMap cs q) c
end

/-- `filterHierarchy(nodes, query)`: identity on an empty trimmed query,
otherwise filter the forest, rebuilding the children of survivors. -/
def filterHierarchy (ns : List Node) (q : String) : List Node :=
  if jsTrim q = "" then ns else filterKeepMap ns q

/-! ### Specification-side filter

Modelled from the spec wording of §4.3, for comparison with the source
functions above: `matchSpec` is the matching predicate for a non-empty
query (own name; identifiers of a leaf; recursively any descendant of a
group); `retainSpec` keeps a node that matches or has a surviving child;
`filterSpec` keeps retained nodes, recursively filtering the children of
surviving groups and passing leaves through unmodified. -/

mutual
def matchSpec (q : String) : Node → Bool
  | .leaf n mids _ =>
    strIncludes (jsLower n) (jsLower q) ||
      mids.any (fun m => strIncludes (jsLower m) (jsLower q))
  | .group n cs _ =>
    strIncludes (jsLower n) (jsLower q) || anyMatchSpec q cs
def anyMatchSpec (q : String) : List Node → Bool
  | [] => false
  | n :: t => matchSpec q n || anyMatchSpec q t
end

mutual
def retainSpec : Node → String → Bool
  | .leaf nm m c, q => matchSpec q (.leaf nm m c)
  | .group nm cs c, q => matchSpec q (.group nm cs c) || anyRetain cs q
def anyRetain : List Node → String → Bool
  | [], _ => false
  | n :: t, q => retainSpec n q || anyRetain t q
end

mutual
def filterSpec : List Node → String → List Node
  | [], _ => []
  | n :: t, q => (if retainSpec n q then [filterNodeSpec n q] else []) ++ filterSpec t q
def filterNodeSpec : Node → String → Node
  | .leaf nm m c, _ => .leaf nm m c
  | .group nm cs c, q => .group nm (filterSpec cs q) c
end

/-! ## Expansion controller (`src/HierarchyTree.jsx`, auto-expand effect) -/

/- Model of `expandMatchingNodes(nodes, path)`: walk the (already
filtered) forest; a group with a non-empty child list is marked for
expansion when it matches the query, and its children are visited with
the extended path; node keys are `root-<i>` at the top and
`<path>-<i>` below. -/
mutual
def expandNode (q : String) (key : String) : Node → List String
  | .leaf _ _ _ => []
  | .group n cs c =>
    if decide (cs.length > 0) then
      (if nodeMatchesSearch q (.group n cs c) then [key] else []) ++
        expandList q key cs 0
    else []
def expandList (q : String) (path : String) : List Node → Nat → List String
  | [], _ => []
  | n :: t, i =>
    expandNode q ((if path == "" then "root-" else path ++ "-") ++ Nat.repr i) n ++
      expandList q path t (i + 1)
end

/-- The `expandedNodes` / `originalExpandedState` objects: a string-keyed
JS object mapping node paths to booleans — an association list with
unique keys in insertion order. -/
abbrev ExpMap := List (String × Bool)

def emGet (m : ExpMap) (k : String) : Option Bool :=
  m.lookup k

/-- JS truthiness of `m[k]` (`undefined` and `false` are falsy). -/
def emTruthy (m : ExpMap) (k : String) : Bool :=
  (emGet m k).getD false

def emKeys (m : ExpMap) : List String :=
  m.map Prod.fst

/-- The parent's toggle `setExpandedNodes(prev => ({...prev, [k]: !prev[k]}))`:
flip an existing key in place, or append the key with value `true`. -/
def emToggle (m : ExpMap) (k : String) : ExpMap :=
  if (emGet m k).isSome then
    m.map (fun p => if p.1 == k then (p.1, !p.2) else p)
  else m ++ [(k, true)]

def applyToggles (m : ExpMap) (ks : List String) : ExpMap :=
  ks.foldl emToggle m

/-- The `newExpandedNodes` object built by the walk: every visited key set
to `true` (keys are distinct node paths; `dedupFirst` is the JS object's
key uniqueness). -/
def mkForced (ks : List String) : ExpMap :=
  (dedupFirst ks).map (fun k => (k, true))

def strLe : String → String → Prop :=
  fun a b => strLeB a b = true

instance : DecidableRel strLe := by
  intro a b
  unfold strLe
  infer_instance

/-- `Object.keys(...).sort()` (default JS sort: code-unit lexicographic). -/
def sortKeys (ks : List String) : List String :=
  ks.insertionSort strLe

/-- The `isDifferent` test of the effect: sorted key lists differ in
length or at some index, or some current key holds a different value
(`expandedNodes[key] !== newExpandedNodes[key]`, strict comparison with
`undefined` distinct from both booleans). -/
def isDifferent (cur target : ExpMap) : Bool :=
  !(sortKeys (emKeys cur) == sortKeys (emKeys target)) ||
    (emKeys cur).any (fun k => !(emGet cur k == emGet target k))

/-- The two reconciliation loops, shared by both branches of the effect:
toggle every target key that is currently falsy, then every current key
that is falsy in the target. -/
def reconcileToggles (cur target : ExpMap) : List String :=
  (emKeys target).filter (fun k => !emTruthy cur k) ++
    (emKeys cur).filter (fun k => !emTruthy target k)

/-- Result of one run of the auto-expand effect. -/
structure StepOut where
  exp : ExpMap
  snap : ExpMap
  toggles : List String

/-- One run of the `React.useEffect` in `HierarchyTree`: on a non-empty
trimmed query, snapshot the expansion state (only when no snapshot is
held, i.e. the saved object has no keys), compute the target expansion
set from the filtered forest and reconcile; on an empty query, reconcile
back to a non-empty snapshot and discard it.  `hasCb` is the presence of
the `onToggleExpanded` callback. -/
def ctrlStep (hasCb : Bool) (tree : List Node) (q : String)
    (exp snap : ExpMap) : StepOut :=
  if jsTrim q ≠ "" then
    let snap' := if snap.isEmpty then exp else snap
    let target := mkForced (expandList q "" (filterHierarchy tree q) 0)
    let tgls := if isDifferent exp target && hasCb then reconcileToggles exp target else []
    ⟨applyToggles exp tgls, snap', tgls⟩
  else
    if !snap.isEmpty && hasCb then
      let tgls := if isDifferent exp snap then reconcileToggles exp snap else []
      ⟨applyToggles exp tgls, [], tgls⟩
    else ⟨exp, [], []⟩

/-- User-visible events driving the component: a user click on a node
chevron (`onToggleExpanded(nodeKey)` while the effect does not re-run),
or a change of the search query (which re-runs the effect once). -/
inductive Ev where
  | tog (k : String)
  | setQ (q : String)

/-- Live state: the externally owned `expandedNodes` and the controller's
saved `originalExpandedState`. -/
structure UiState where
  exp : ExpMap
  snap : ExpMap

def evStep (tree : List Node) (s : UiState) : Ev → UiState
  | .tog k => ⟨emToggle s.exp k, s.snap⟩
  | .setQ q =>
    let o := ctrlStep true tree q s.exp s.snap
    ⟨o.exp, o.snap⟩

def runEvents (tree : List Node) (s0 : UiState) (evs : List Ev) : UiState :=
  evs.foldl (evStep tree) s0


/-! ## Sibling ordering of a built tree -/

/-- Adjacent sibling names are non-decreasing under `lc`. -/
def chainLe (lc : String → String → Bool) : List Node → Bool
  | [] => true
  | [_] => true
  | a :: b :: t => lc a.name b.name && chainLe lc (b :: t)

/- Every sibling list of every node of a subtree / forest is sorted. -/
mutual
def sortedNodeB (lc : String → String → Bool) : Node → Bool
  | .leaf _ _ _ => true
  | .group _ cs _ => chainLe lc cs && sortedForestB lc cs
def sortedForestB (lc : String → String → Bool) : List Node → Bool
  | [] => true
  | n :: t => sortedNodeB lc n && sortedForestB lc t
end

/-! ## Concrete instances used by witnesses and counterexamples -/

/-- A concrete comparison with easily provable transitivity and totality,
used to instantiate sorting hypotheses in closed statements. -/
def lcLen : String → String → Bool :=
  fun a b => decide (a.length ≤ b.length)

/-- A concrete stand-in for the locale comparison in closed evaluations:
code-unit string ordering. -/
def lc0 : String → String → Bool := strLeB

/-- Scenario A rows of the spec (§8). -/
def rowsA : List Row :=
  [[("Region", "East"), ("Tier", "Gold"), ("MID", "m1")],
   [("Region", "East"), ("Tier", "Gold"), ("MID", "m2")],
   [("Region", "West"), ("Tier", ""), ("MID", "m3")]]

/-- The tree built from Scenario A, wrapped in the synthetic root. -/
def rootA : Node :=
  .group "All Accounts"
    [.group "East" [.leaf "Gold" ["m1", "m2"] 2] 2,
     .group "West" [.leaf "—" ["m3"] 1] 1] 3

/-- Rows where the identifier value `m1` recurs in two distinct leaf
groups (`B = p` and `B = q`). -/
def rowsC1 : List Row :=
  [[("A", "x"), ("B", "p"), ("M", "m1")],
   [("A", "x"), ("B", "q"), ("M", "m1")]]

/-- The tree built from `rowsC1`, wrapped in the synthetic root. -/
def rootC1 : Node :=
  .group "All Accounts"
    [.group "x" [.leaf "p" ["m1"] 1, .leaf "q" ["m1"] 1] 2] 2

/-- Rows whose identifier column is blank or whitespace in every row. -/
def rowsC9 : List Row :=
  [[("T", "a"), ("M", " ")], [("T", "b")]]

/-- A mapping with empty rows in mind: two levels aliased to the same
non-empty alias string. -/
def mapC3 : Mapping :=
  ⟨["A"], none, [("A", "x"), ("B", "x")]⟩

/-- A tree with one top group and two nested subgroups, used to drive the
expansion controller through a full search session. -/
def treeC2 : List Node :=
  [.group "g"
    [.group "h0" [.leaf "x" ["idA"] 1] 1,
     .group "h1" [.leaf "y" ["idB"] 1] 1] 2]

/-- A minimal tree with a single matching group. -/
def treeC4 : List Node :=
  [.group "g" [.leaf "m" ["idx"] 1] 1]

/-- A group whose count exceeds the count sum of its surviving children
after filtering. -/
def groupC10 : Node :=
  .group "G" [.leaf "a" ["x"] 1, .leaf "b" ["y"] 1, .leaf "c" ["z"] 1] 3

/-! ## Helper lemmas -/

theorem mem_dedupAux {x : String} :
    ∀ (xs seen : List String), x ∈ dedupAux seen xs ↔ x ∈ xs ∧ ¬ x ∈ seen := by
  intro xs
  induction xs with
  | nil => intro seen; simp [dedupAux]
  | cons y t ih =>
    intro seen
    by_cases hy : y ∈ seen
    · simp only [dedupAux, hy, if_pos]
      rw [ih]
      constructor
      · rintro ⟨hx, hs⟩; exact ⟨List.mem_cons_of_mem _ hx, hs⟩
      · rintro ⟨hx, hs⟩
        rcases List.mem_cons.mp hx with h | h
        · exact absurd (h ▸ hy) hs
        · exact ⟨h, hs⟩
    · simp only [dedupAux, hy, if_neg, not_false_iff]
      constructor
      · intro hmem
        rcases List.mem_cons.mp hmem with h | h
        · subst h
          exact ⟨List.mem_cons_self _ _, hy⟩
        · rcases (ih _).mp h with ⟨hx, hs⟩
          exact ⟨List.mem_cons_of_mem _ hx,
            fun hseen => hs (List.mem_cons_of_mem _ hseen)⟩
      · rintro ⟨hx, hs⟩
        by_cases hxy : x = y
        · subst hxy; exact List.mem_cons_self _ _
        · have hxt : x ∈ t := by
            rcases List.mem_cons.mp hx with h | h
            · exact absurd h hxy
            · exact h
          refine List.mem_cons_of_mem _ ((ih _).mpr ⟨hxt, fun hseen => ?_⟩)
          rcases List.mem_cons.mp hseen with h2 | h2
          · exact hxy h2
          · exact hs h2

theorem mem_dedupFirst {x : String} {xs : List String} :
    x ∈ dedupFirst xs ↔ x ∈ xs := by
  rw [dedupFirst, mem_dedupAux]
  simp

theorem nodup_dedupAux : ∀ (xs seen : List String),
    (dedupAux seen xs).Nodup ∧ ∀ y ∈ dedupAux seen xs, ¬ y ∈ seen := by
  intro xs
  induction xs with
  | nil => intro seen; simp [dedupAux]
  | cons x t ih =>
    intro seen
    by_cases hx : x ∈ seen
    · simpa [dedupAux, hx] using ih seen
    · simp only [dedupAux, hx, if_neg, not_false_iff]
      obtain ⟨hnd, hout⟩ := ih (x :: seen)
      refine ⟨List.nodup_cons.mpr ⟨fun hmem => ?_, hnd⟩, ?_⟩
      · exact hout x hmem (List.mem_cons_self _ _)
      · intro y hy
        rcases List.mem_cons.mp hy with h | h
        · subst h; exact hx
        · exact fun hs => hout y h (List.mem_cons_of_mem _ hs)

theorem nodup_dedupFirst (xs : List String) : (dedupFirst xs).Nodup :=
  (nodup_dedupAux xs []).1

theorem dedupAux_eq_nil : ∀ (xs seen : List String),
    dedupAux seen xs = [] ↔ ∀ x ∈ xs, x ∈ seen := by
  intro xs
  induction xs with
  | nil => intro seen; simp [dedupAux]
  | cons x t ih =>
    intro seen
    by_cases hx : x ∈ seen
    · simp only [dedupAux, hx, if_pos]
      rw [ih]
      constructor
      · intro h y hy
        rcases List.mem_cons.mp hy with h2 | h2
        · exact h2 ▸ hx
        · exact h y h2
      · intro h y hy; exact h y (List.mem_cons_of_mem _ hy)
    · simp only [dedupAux, hx, if_neg, not_false_iff]
      constructor
      · intro h; exact absurd h (List.cons_ne_nil _ _)
      · intro h
        exact absurd (h x (List.mem_cons_self _ _)) hx


theorem dedupFirst_eq_nil {xs : List String} : dedupFirst xs = [] ↔ xs = [] := by
  rw [dedupFirst, dedupAux_eq_nil]
  constructor
  · intro h
    cases xs with
    | nil => rfl
    | cons x t => exact absurd (h x (List.mem_cons_self _ _)) (List.not_mem_nil x)
  · rintro rfl
    intro x hx
    exact absurd hx (List.not_mem_nil x)

theorem self_mem_nodeList (n : Node) : n ∈ nodeList n := by
  cases n with
  | leaf nm m c => exact List.mem_singleton.mpr rfl
  | group nm cs c => exact List.mem_cons_self _ _

theorem mem_forestNodes {n : Node} :
    ∀ {ns : List Node}, n ∈ forestNodes ns ↔ ∃ m ∈ ns, n ∈ nodeList m := by
  intro ns
  induction ns with
  | nil => simp [forestNodes]
  | cons m t ih =>
    simp only [forestNodes, List.mem_append, ih, List.mem_cons]
    constructor
    · rintro (h | ⟨m2, hm2, hn⟩)
      · exact ⟨m, Or.inl rfl, h⟩
      · exact ⟨m2, Or.inr hm2, hn⟩
    · rintro ⟨m2, h | hm2, hn⟩
      · exact Or.inl (h ▸ hn)
      · exact Or.inr ⟨m2, hm2, hn⟩

theorem foldl_add_count (cs : List Node) :
    ∀ a : Nat, cs.foldl (fun s c => s + c.count) a = a + (cs.map Node.count).sum := by
  induction cs with
  | nil => intro a; simp
  | cons c t ih =>
    intro a
    simp only [List.foldl_cons, List.map_cons, List.sum_cons, ih]
    omega

theorem sumCounts_eq (cs : List Node) : sumCounts cs = (cs.map Node.count).sum := by
  rw [sumCounts, foldl_add_count]
  omega

theorem length_forestMids :
    ∀ cs : List Node,
      (forestMids cs).length = (cs.map (fun c => (subtreeMids c).length)).sum := by
  intro cs
  induction cs with
  | nil => simp [forestMids]
  | cons c t ih =>
    simp [forestMids, List.length_append, ih]

theorem sumCounts_eq_forestMids {cs : List Node}
    (h : ∀ c ∈ cs, c.count = (subtreeMids c).length) :
    sumCounts cs = (forestMids cs).length := by
  rw [sumCounts_eq, length_forestMids, List.map_congr_left h]

theorem buildAux_count_ok (lc : String → String → Bool) (idc : Option String) :
    ∀ (levels : List String) (rows : List Row),
      ∀ n ∈ forestNodes (buildAux lc idc levels rows),
        n.count = (subtreeMids n).length ∧ leafMidsNodup n := by
  intro levels
  induction levels with
  | nil => intro rows n hn; simp [buildAux, forestNodes] at hn
  | cons l rest ih =>
    intro rows n hn
    simp only [buildAux] at hn
    cases hrows : rows.isEmpty with
    | true => simp [hrows, forestNodes] at hn
    | false =>
      simp only [hrows, Bool.false_eq_true, if_neg, not_false_iff] at hn
      obtain ⟨m, hm, hnm⟩ := mem_forestNodes.mp hn
      rw [List.mem_insertionSort] at hm
      obtain ⟨k, _, rfl⟩ := List.mem_map.mp hm
      cases rest with
      | nil =>
        cases idc with
        | some c =>
          simp only [leafNode] at hnm
          rcases List.mem_singleton.mp hnm with rfl
          exact ⟨rfl, nodup_dedupFirst _⟩
        | none =>
          simp only [leafNode] at hnm
          rcases List.mem_singleton.mp hnm with rfl
          exact ⟨rfl, List.nodup_singleton _⟩
      | cons r rs =>
        simp only [nodeList] at hnm
        rcases List.mem_cons.mp hnm with rfl | hn2
        · refine ⟨?_, trivial⟩
          show sumCounts _ = (subtreeMids _).length
          have hmem : ∀ c ∈ buildAux lc idc (r :: rs) (rowsWithKey rows l k),
              c.count = (subtreeMids c).length := by
            intro c hc
            exact (ih _ c (mem_forestNodes.mpr ⟨c, hc, self_mem_nodeList c⟩)).1
          exact sumCounts_eq_forestMids hmem
        · exact ih _ n hn2

/-- Amended count invariant behind C1: in the wrapped tree, every node's
`count` equals the number of identifiers in its subtree counted once per
leaf (the length of the concatenation of the leaves' identifier lists),
and every leaf's identifier list is duplicate-free — duplicates collapse
within a leaf group, not across leaf groups. -/
theorem count_invariant (lc : String → String → Bool) (rows : List Row)
    (levels : List String) (idc : Option String) (root : Node)
    (hroot : hierarchyRoot lc rows levels idc = some root) :
    ∀ n ∈ nodeList root, n.count = (subtreeMids n).length ∧ leafMidsNodup n := by
  unfold hierarchyRoot at hroot
  by_cases hcond : (rows.isEmpty || levels.isEmpty) = true
  · rw [if_pos hcond] at hroot
    exact absurd hroot (by simp)
  · rw [if_neg hcond] at hroot
    obtain rfl := Option.some_injective _ hroot
    intro n hn
    simp only [nodeList] at hn
    rcases List.mem_cons.mp hn with rfl | hn2
    · refine ⟨?_, trivial⟩
      show sumCounts _ = (subtreeMids _).length
      have hmem : ∀ c ∈ buildHierarchy lc rows levels idc,
          c.count = (subtreeMids c).length := by
        intro c hc
        exact (buildAux_count_ok lc idc levels rows c
          (mem_forestNodes.mpr ⟨c, hc, self_mem_nodeList c⟩)).1
      exact sumCounts_eq_forestMids hmem
    · exact buildAux_count_ok lc idc levels rows n hn2

/-- Counterexample to C1 as stated: with `rowsC1` the identifier `m1`
occurs in two distinct leaf groups, so the root's count is 2 while only
one distinct identifier value occurs in its subtree. -/
theorem count_claim_false :
    hierarchyRoot lc0 rowsC1 ["A", "B"] (some "M") = some rootC1 ∧
    rootC1.count = 2 ∧ (dedupFirst (subtreeMids rootC1)).length = 1 ∧
    rootC1.count ≠ (dedupFirst (subtreeMids rootC1)).length := by
  exact ⟨rfl, rfl, rfl, by decide⟩

/-- Witness for `count_invariant` at Scenario A, applied at the root. -/
theorem count_invariant_witness :
    hierarchyRoot lc0 rowsA ["Region", "Tier"] (some "MID") = some rootA ∧
    rootA.count = (subtreeMids rootA).length := by
  refine ⟨rfl, ?_⟩
  exact (count_invariant lc0 rowsA ["Region", "Tier"] (some "MID") rootA rfl
    rootA (self_mem_nodeList rootA)).1

theorem chainLe_of_pairwise (lc : String → String → Bool) :
    ∀ {ns : List Node}, List.Pairwise (nodeLe lc) ns → chainLe lc ns = true := by
  intro ns
  induction ns with
  | nil => intro _; rfl
  | cons a t ih =>
    intro hp
    obtain ⟨ha, ht⟩ := List.pairwise_cons.mp hp
    cases t with
    | nil => rfl
    | cons b t2 =>
      simp only [chainLe, Bool.and_eq_true]
      exact ⟨ha b (List.mem_cons_self _ _), ih ht⟩

theorem sortedForestB_iff (lc : String → String → Bool) :
    ∀ {ns : List Node},
      sortedForestB lc ns = true ↔ ∀ n ∈ ns, sortedNodeB lc n = true := by
  intro ns
  induction ns with
  | nil => simp [sortedForestB]
  | cons n t ih =>
    simp only [sortedForestB, Bool.and_eq_true, ih, List.mem_cons]
    constructor
    · rintro ⟨h1, h2⟩ m (rfl | hm)
      · exact h1
      · exact h2 m hm
    · intro h
      exact ⟨h n (Or.inl rfl), fun m hm => h m (Or.inr hm)⟩

theorem buildAux_sorted (lc : String → String → Bool) (idc : Option String)
    (htrans : ∀ a b c : String, lc a b = true → lc b c = true → lc a c = true)
    (htotal : ∀ a b : String, lc a b = true ∨ lc b a = true) :
    ∀ (levels : List String) (rows : List Row),
      chainLe lc (buildAux lc idc levels rows) = true ∧
      sortedForestB lc (buildAux lc idc levels rows) = true := by
  haveI : IsTrans Node (nodeLe lc) := ⟨fun a b c => htrans a.name b.name c.name⟩
  haveI : IsTotal Node (nodeLe lc) := ⟨fun a b => htotal a.name b.name⟩
  intro levels
  induction levels with
  | nil => intro rows; exact ⟨rfl, rfl⟩
  | cons l rest ih =>
    intro rows
    simp only [buildAux]
    cases hrows : rows.isEmpty with
    | true => exact ⟨rfl, rfl⟩
    | false =>
      simp only [Bool.false_eq_true, if_neg, not_false_iff]
      constructor
      · exact chainLe_of_pairwise lc (List.sorted_insertionSort (nodeLe lc) _)
      · rw [sortedForestB_iff]
        intro n hn
        rw [List.mem_insertionSort] at hn
        obtain ⟨k, _, rfl⟩ := List.mem_map.mp hn
        cases rest with
        | nil =>
          cases idc with
          | some c => rfl
          | none => rfl
        | cons r rs =>
          simp only [sortedNodeB, Bool.and_eq_true]
          exact ih _

/-- C7: in a built tree the sibling lists are sorted by name in
non-decreasing order under the comparison `lc`, at every depth, whenever
`lc` is transitive and total. -/
theorem siblings_sorted (lc : String → String → Bool)
    (htrans : ∀ a b c : String, lc a b = true → lc b c = true → lc a c = true)
    (htotal : ∀ a b : String, lc a b = true ∨ lc b a = true)
    (rows : List Row) (levels : List String) (idc : Option String) :
    chainLe lc (buildHierarchy lc rows levels idc) = true ∧
    sortedForestB lc (buildHierarchy lc rows levels idc) = true :=
  buildAux_sorted lc idc htrans htotal levels rows

/-- Witness for `siblings_sorted` with the length-based comparison at
Scenario A. -/
theorem siblings_sorted_witness :
    chainLe lcLen (buildHierarchy lcLen rowsA ["Region", "Tier"] (some "MID")) = true ∧
    sortedForestB lcLen (buildHierarchy lcLen rowsA ["Region", "Tier"] (some "MID")) = true :=
  siblings_sorted lcLen
    (fun _ _ _ hab hbc =>
      decide_eq_true (Nat.le_trans (of_decide_eq_true hab) (of_decide_eq_true hbc)))
    (fun a b => Or.imp decide_eq_true decide_eq_true (Nat.le_total a.length b.length))
    rowsA ["Region", "Tier"] (some "MID")

theorem mem_build_single (lc : String → String → Bool) (rows : List Row)
    (l : String) (idc : Option String) :
    ∀ n ∈ buildHierarchy lc rows [l] idc,
      ∃ k ∈ groupKeys rows l, n = leafNode idc k (rowsWithKey rows l k) := by
  intro n hn
  simp only [buildHierarchy, buildAux] at hn
  cases hrows : rows.isEmpty with
  | true => simp [hrows] at hn
  | false =>
    simp only [hrows, Bool.false_eq_true, if_neg, not_false_iff] at hn
    rw [List.mem_insertionSort] at hn
    obtain ⟨k, hk, rfl⟩ := List.mem_map.mp hn
    exact ⟨k, hk, rfl⟩

/-- C8: every node produced at the last remaining level is a leaf; with an
identifier column its identifier list is the first-seen deduplication of
the trimmed non-empty identifier values of its group rows and its count
is that list's length; without one it is the singleton of the group's own
key with count 1. -/
theorem leaf_identifiers (lc : String → String → Bool) (rows : List Row)
    (l : String) (idc : Option String) :
    ∀ n ∈ buildHierarchy lc rows [l] idc,
      (∀ c, idc = some c →
        n = Node.leaf n.name
              (dedupFirst ((rowsWithKey rows l n.name).filterMap (idValue c)))
              (dedupFirst ((rowsWithKey rows l n.name).filterMap (idValue c))).length) ∧
      (idc = none → n = Node.leaf n.name [n.name] 1) := by
  intro n hn
  obtain ⟨k, _, rfl⟩ := mem_build_single lc rows l idc n hn
  cases idc with
  | some c =>
    constructor
    · intro c2 hc2
      obtain rfl : c = c2 := by injection hc2
      rfl
    · intro h; exact absurd h (by simp)
  | none =>
    constructor
    · intro c2 hc2; exact absurd hc2 (by simp)
    · intro _; rfl

/-- Witness for `leaf_identifiers`: Scenario A grouped by `Tier` alone. -/
theorem leaf_identifiers_witness :
    buildHierarchy lc0 rowsA ["Tier"] (some "MID") =
      [.leaf "Gold" ["m1", "m2"] 2, .leaf "—" ["m3"] 1] ∧
    (Node.leaf "Gold" ["m1", "m2"] 2) =
      Node.leaf "Gold"
        (dedupFirst ((rowsWithKey rowsA "Tier" "Gold").filterMap (idValue "MID")))
        (dedupFirst ((rowsWithKey rowsA "Tier" "Gold").filterMap (idValue "MID"))).length := by
  have hmem : (Node.leaf "Gold" ["m1", "m2"] 2) ∈
      buildHierarchy lc0 rowsA ["Tier"] (some "MID") := by
    rw [show buildHierarchy lc0 rowsA ["Tier"] (some "MID") =
      [.leaf "Gold" ["m1", "m2"] 2, .leaf "—" ["m3"] 1] from rfl]
    exact List.mem_cons_self _ _
  exact ⟨rfl,
    (leaf_identifiers lc0 rowsA "Tier" (some "MID") _ hmem).1 "MID" rfl⟩

/-- C9: when every row's identifier value is blank, the last-level groups
still appear as leaves, with an empty identifier list and count 0; the
blank values are dropped rather than collapsed into a sentinel, and the
forest is non-empty whenever the rows are. -/
theorem blank_identifiers_kept (lc : String → String → Bool) (rows : List Row)
    (l : String) (c : String) (hall : ∀ r ∈ rows, idValue c r = none) :
    (∀ n ∈ buildHierarchy lc rows [l] (some c), n = Node.leaf n.name [] 0) ∧
    (rows ≠ [] → buildHierarchy lc rows [l] (some c) ≠ []) := by
  constructor
  · intro n hn
    obtain ⟨k, _, rfl⟩ := mem_build_single lc rows l (some c) n hn
    have hnil : (rowsWithKey rows l k).filterMap (idValue c) = [] := by
      rw [List.filterMap_eq_nil_iff]
      intro r hr
      exact hall r (List.mem_of_mem_filter hr)
    show leafNode (some c) k (rowsWithKey rows l k) = _
    rw [leafNode]
    simp only [hnil]
    rfl
  · intro hrows
    simp only [buildHierarchy, buildAux]
    have hEmpty : rows.isEmpty = false := by
      cases rows with
      | nil => exact absurd rfl hrows
      | cons x t => rfl
    simp only [hEmpty, Bool.false_eq_true, if_neg, not_false_iff]
    intro hcontra
    have hlen := congrArg List.length hcontra
    rw [List.length_insertionSort, List.length_map] at hlen
    have hkeys : groupKeys rows l = [] := List.eq_nil_of_length_eq_zero hlen
    rw [groupKeys, dedupFirst_eq_nil, List.map_eq_nil_iff] at hkeys
    exact hrows hkeys

/-- Witness for `blank_identifiers_kept` at `rowsC9` (blank and missing
identifier cells). -/
theorem blank_identifiers_kept_witness :
    buildHierarchy lc0 rowsC9 ["T"] (some "M") =
      [.leaf "a" [] 0, .leaf "b" [] 0] ∧
    buildHierarchy lc0 rowsC9 ["T"] (some "M") ≠ [] := by
  refine ⟨rfl, ?_⟩
  exact (blank_identifiers_kept lc0 rowsC9 "T" "M" (by decide)).2 (by decide)

theorem getDuplicateAliases_eq_nil_iff (m : Mapping) :
    getDuplicateAliases m = [] ↔ (aliasVals m).Nodup := by
  rw [getDuplicateAliases, dedupFirst_eq_nil, List.map_eq_nil_iff,
    List.filter_eq_nil_iff]
  constructor
  · intro hall
    rw [List.nodup_iff_injective_getElem]
    rintro ⟨i, hi⟩ ⟨j, hj⟩ hij
    simp only at hij
    have hmi : ((i, (aliasVals m)[i]) : Nat × String) ∈ (aliasVals m).enum := by
      rw [List.mk_mem_enum_iff_getElem?]
      exact List.getElem?_eq_getElem hi
    have hmj : ((j, (aliasVals m)[j]) : Nat × String) ∈ (aliasVals m).enum := by
      rw [List.mk_mem_enum_iff_getElem?]
      exact List.getElem?_eq_getElem hj
    have hi2 := hall _ hmi
    have hj2 := hall _ hmj
    simp only [Bool.not_eq_true', beq_eq_false_iff_ne, ne_eq,
      Decidable.not_not] at hi2 hj2
    have : i = j := by
      have := hi2
      rw [hij] at this
      rw [this] at hj2
      exact hj2.symm ▸ rfl
    exact Fin.ext this
  · intro hnd p hp
    obtain ⟨i, x⟩ := p
    rw [List.mk_mem_enum_iff_getElem?, List.getElem?_eq_some] at hp
    obtain ⟨hlt, rfl⟩ := hp
    simp only [Bool.not_eq_true', beq_eq_false_iff_ne, ne_eq, Decidable.not_not]
    exact List.indexOf_getElem hnd i hlt

/-- Counterexample to C3 as stated: with zero rows, a mapping whose two
aliases coincide still produces a warning, and a duplicated level
selection still produces an error besides the empty-levels one. -/
theorem validate_empty_rows_claim_false :
    (validateMapping [] mapC3).2 ≠ [] ∧
    (validateMapping [] ⟨["A", "A"], none, []⟩).1 ≠ [] ∧
    (["A", "A"] : List String) ≠ [] := by
  refine ⟨?_, ?_, by decide⟩
  · intro h
    exact absurd (congrArg List.length h) (by decide)
  · intro h
    exact absurd (congrArg List.length h) (by decide)

/-- C3 (amended): with an empty rows list `validateMapping` is total and
emits no missing-value warnings — its warnings are empty exactly when the
truthy alias values are duplicate-free, and its errors are empty exactly
when the levels are non-empty and no duplicate selection exists. -/
theorem validate_empty_rows (m : Mapping) :
    ((validateMapping [] m).2 = [] ↔ (aliasVals m).Nodup) ∧
    ((validateMapping [] m).1 = [] ↔
      (m.levels ≠ [] ∧ hasDuplicateSelections m = false)) := by
  constructor
  · rw [← getDuplicateAliases_eq_nil_iff]
    simp only [validateMapping, List.length_nil, gt_iff_lt,
      Nat.lt_irrefl, false_and, if_neg, not_false_iff, List.append_nil]
    by_cases hd : getDuplicateAliases m = []
    · simp [hd]
    · have : (getDuplicateAliases m).length > 0 := by
        cases h : getDuplicateAliases m with
        | nil => exact absurd h hd
        | cons a t => simp [h]
      simp only [this, if_pos]
      constructor
      · intro h; exact absurd h (by simp)
      · intro h; exact absurd h hd
  · simp only [validateMapping, List.append_eq_nil]
    constructor
    · rintro ⟨h1, h2⟩
      constructor
      · intro hlev
        rw [if_pos (by simp [hlev])] at h1
        exact absurd h1 (by simp)
      · by_contra hdup
        rw [if_pos (by simpa using hdup)] at h2
        exact absurd h2 (by simp)
    · rintro ⟨hlev, hdup⟩
      constructor
      · rw [if_neg]
        simp only [List.length_eq_zero]
        exact hlev
      · rw [if_neg]
        simp [hdup]

theorem nodeInd (motive_1 : Node → Prop) (motive_2 : List Node → Prop)
    (hleaf : ∀ (nm : String) (m : List String) (c : Nat), motive_1 (.leaf nm m c))
    (hgroup : ∀ (nm : String) (cs : List Node) (c : Nat),
      motive_2 cs → motive_1 (.group nm cs c))
    (hnil : motive_2 [])
    (hcons : ∀ (n : Node) (t : List Node), motive_1 n → motive_2 t → motive_2 (n :: t)) :
    (∀ n, motive_1 n) ∧ (∀ ns, motive_2 ns) := by
  have h1 : ∀ n, motive_1 n := nodeList.induct motive_1 motive_2 hleaf hgroup hnil hcons
  refine ⟨h1, ?_⟩
  intro ns
  induction ns with
  | nil => exact hnil
  | cons n t ih => exact hcons n t (h1 n) ih

theorem match_eq_spec (q : String) (hq : jsTrim q ≠ "") :
    (∀ n, nodeMatchesSearch q n = matchSpec q n) ∧
    (∀ ns, anyNodeMatches q ns = anyMatchSpec q ns) := by
  refine nodeInd _ _ ?_ ?_ ?_ ?_
  · intro nm m c
    simp only [nodeMatchesSearch, matchSpec]
    rw [if_neg hq]
    by_cases hname : strIncludes (jsLower nm) (jsLower q) = true
    · simp [hname]
    · simp only [Bool.not_eq_true] at hname
      simp [hname]
  · intro nm cs c ih
    simp only [nodeMatchesSearch, matchSpec]
    rw [if_neg hq]
    by_cases hname : strIncludes (jsLower nm) (jsLower q) = true
    · simp [hname]
    · simp only [Bool.not_eq_true] at hname
      simp [hname, ih]
  · rfl
  · intro n t ih1 ih2
    simp only [anyNodeMatches, anyMatchSpec, ih1, ih2]

theorem filterSpec_length_pos (q : String) :
    ∀ cs : List Node, decide ((filterSpec cs q).length > 0) = anyRetain cs q := by
  intro cs
  induction cs with
  | nil => rfl
  | cons n t ih =>
    simp only [filterSpec, anyRetain]
    by_cases hr : retainSpec n q = true
    · simp [hr]
    · simp only [Bool.not_eq_true] at hr
      simp [hr, ih]

theorem filter_eq_spec (q : String) (hq : jsTrim q ≠ "") :
    (∀ n : Node, keepNode n q = retainSpec n q ∧ mapNode n q = filterNodeSpec n q) ∧
    (∀ ns : List Node, filterKeepMap ns q = filterSpec ns q) := by
  refine nodeInd _ _ ?_ ?_ ?_ ?_
  · intro nm m c
    exact ⟨(match_eq_spec q hq).1 _, rfl⟩
  · intro nm cs c ih
    constructor
    · simp only [keepNode, retainSpec]
      rw [(match_eq_spec q hq).1, ih, filterSpec_length_pos]
    · simp only [mapNode, filterNodeSpec]
      rw [ih]
  · exact rfl
  · intro n t ih1 ih2
    simp only [filterKeepMap, filterSpec]
    rw [ih1.1, ih1.2, ih2]

/-- C6: for a non-empty trimmed query, `filterHierarchy` computes exactly
the specification filter: it retains a node precisely when the node
matches (case-insensitive substring on its name, its identifiers for a
leaf, any descendant for a group) or one of its children survives, it
rebuilds surviving groups with the recursively filtered child list, and
it passes retained leaves through unmodified. -/
theorem filter_matches_spec (ns : List Node) (q : String) (hq : jsTrim q ≠ "") :
    filterHierarchy ns q = filterSpec ns q := by
  rw [filterHierarchy, if_neg hq]
  exact (filter_eq_spec q hq).2 ns

/-- Witness for `filter_matches_spec` on a concrete tree and query. -/
theorem filter_matches_spec_witness :
    jsTrim "idb" ≠ "" ∧ filterHierarchy treeC2 "idb" = filterSpec treeC2 "idb" :=
  ⟨by decide, filter_matches_spec treeC2 "idb" (by decide)⟩

theorem filterKeepMap_eq_filter_map (q : String) :
    ∀ ns : List Node,
      filterKeepMap ns q =
        (ns.filter (fun n => keepNode n q)).map (fun n => mapNode n q) := by
  intro ns
  induction ns with
  | nil => rfl
  | cons n t ih =>
    show (if keepNode n q then [mapNode n q] else []) ++ filterKeepMap t q = _
    by_cases hk : keepNode n q = true
    · simp [List.filter_cons, hk, ih]
    · simp only [Bool.not_eq_true] at hk
      simp [List.filter_cons, hk, ih]

/-- C10: for a non-empty trimmed query, filtering preserves the `name`
and `count` of every surviving node — only the children list of a
surviving group is replaced by its filtered version. -/
theorem filter_preserves_name_count (ns : List Node) (q : String)
    (hq : jsTrim q ≠ "") :
    (filterHierarchy ns q).map (fun n => (n.name, n.count)) =
      (ns.filter (fun n => keepNode n q)).map (fun n => (n.name, n.count)) := by
  rw [filterHierarchy, if_neg hq, filterKeepMap_eq_filter_map, List.map_map]
  exact List.map_congr_left (fun n _ => by cases n <;> rfl)

/-- Witness for `filter_preserves_name_count`: the surviving group keeps
count 3 although its only visible child counts 1. -/
theorem filter_preserves_name_count_witness :
    jsTrim "a" ≠ "" ∧
    (filterHierarchy [groupC10] "a").map (fun n => (n.name, n.count)) =
      (([groupC10].filter (fun n => keepNode n "a")).map (fun n => (n.name, n.count))) ∧
    filterHierarchy [groupC10] "a" = [.group "G" [.leaf "a" ["x"] 1] 3] ∧
    sumCounts [Node.leaf "a" ["x"] 1] = 1 :=
  ⟨by decide, filter_preserves_name_count [groupC10] "a" (by decide), rfl, rfl⟩

theorem snap_keep (hasCb : Bool) (tree : List Node) (q : String)
    (exp snap : ExpMap) (hq : jsTrim q ≠ "") (hsnap : snap ≠ []) :
    (ctrlStep hasCb tree q exp snap).snap = snap := by
  have hne : snap.isEmpty = false := by
    cases snap with
    | nil => exact absurd rfl hsnap
    | cons a t => rfl
  simp only [ctrlStep, if_pos hq]
  simp [hne]

theorem snap_init (hasCb : Bool) (tree : List Node) (q : String)
    (exp : ExpMap) (hq : jsTrim q ≠ "") :
    (ctrlStep hasCb tree q exp []).snap = exp := by
  simp only [ctrlStep, if_pos hq]
  simp [List.isEmpty]

/-- C4 (amended): provided the ExpansionState holds at least one key when
the query first becomes non-empty, the snapshot taken then equals that
pre-search state and is left unchanged by every later
Searching → Searching transition. -/
theorem snapshot_stable (tree : List Node) (e0 : ExpMap) (q : String)
    (qs : List String) (h0 : e0 ≠ []) (hq : jsTrim q ≠ "")
    (hqs : ∀ r ∈ qs, jsTrim r ≠ "") :
    (runEvents tree ⟨e0, []⟩ ((q :: qs).map Ev.setQ)).snap = e0 := by
  have main : ∀ (qs2 : List String) (exp : ExpMap), (∀ r ∈ qs2, jsTrim r ≠ "") →
      (runEvents tree ⟨exp, e0⟩ (qs2.map Ev.setQ)).snap = e0 := by
    intro qs2
    induction qs2 with
    | nil => intro exp _; rfl
    | cons r rs ih =>
      intro exp hall
      have hr := hall r (List.mem_cons_self _ _)
      have hsnap := snap_keep true tree r exp e0 hr h0
      simp only [List.map_cons, runEvents, List.foldl_cons]
      have hstep : evStep tree ⟨exp, e0⟩ (Ev.setQ r) =
          ⟨(ctrlStep true tree r exp e0).exp, e0⟩ := by
        simp [evStep, hsnap]
      rw [hstep]
      exact ih _ (fun x hx => hall x (List.mem_cons_of_mem _ hx))
  simp only [List.map_cons, runEvents, List.foldl_cons]
  have hstep : evStep tree ⟨e0, []⟩ (Ev.setQ q) =
      ⟨(ctrlStep true tree q e0 []).exp, e0⟩ := by
    simp [evStep, snap_init true tree q e0 hq]
  rw [hstep]
  exact main qs _ hqs

/-- Witness for `snapshot_stable` on `treeC4` with one toggled key. -/
theorem snapshot_stable_witness :
    ([(("root-0" : String), true)] : ExpMap) ≠ [] ∧ jsTrim "idx" ≠ "" ∧
    (runEvents treeC4 ⟨[("root-0", true)], []⟩
      ([("idx" : String), "id"].map Ev.setQ)).snap = [("root-0", true)] :=
  ⟨by decide, by decide,
    snapshot_stable treeC4 [("root-0", true)] "idx" ["id"] (by decide) (by decide)
      (by decide)⟩

/-- Counterexample to C4 as stated: with an empty pre-search
ExpansionState the empty-snapshot guard re-captures on the next
Searching → Searching transition, so the snapshot changes from the
pre-search `[]` to the search-modified state. -/
theorem snapshot_overwritten :
    jsTrim "idx" ≠ "" ∧ jsTrim "id" ≠ "" ∧
    (runEvents treeC4 ⟨[], []⟩ [Ev.setQ "idx"]).snap = [] ∧
    (runEvents treeC4 ⟨[], []⟩ [Ev.setQ "idx", Ev.setQ "id"]).snap =
      [("root-0", true)] :=
  ⟨by decide, by decide, rfl, rfl⟩

/-- C2 (code bug): a full search session over `treeC2` — one idle toggle,
a search, a query edit, then clearing — ends with path `root-0-0`
expanded although it was collapsed in the pre-search state, and with the
snapshot discarded: clearing the query does not restore the
ExpansionState. -/
theorem clear_does_not_restore :
    (runEvents treeC2 ⟨[], []⟩ [Ev.tog "root-0"]).exp = [("root-0", true)] ∧
    emTruthy [("root-0", true)] "root-0-0" = false ∧
    (runEvents treeC2 ⟨[], []⟩
      [Ev.tog "root-0", Ev.setQ "idb", Ev.setQ "g", Ev.setQ ""]).snap = [] ∧
    emTruthy (runEvents treeC2 ⟨[], []⟩
      [Ev.tog "root-0", Ev.setQ "idb", Ev.setQ "g", Ev.setQ ""]).exp "root-0-0" =
      true :=
  ⟨rfl, rfl, rfl, rfl⟩

/-- C5 (code bug): at the clearing reconciliation reached by the same
session, the controller emits a toggle for `root-0-0`, whose current
value (`false`, collapsed) already equals its target value in the
snapshot (absent, collapsed). -/
theorem toggles_path_at_target :
    (runEvents treeC2 ⟨[], []⟩ [Ev.tog "root-0", Ev.setQ "idb", Ev.setQ "g"]).exp =
      [("root-0", false), ("root-0-0", false)] ∧
    (runEvents treeC2 ⟨[], []⟩ [Ev.tog "root-0", Ev.setQ "idb", Ev.setQ "g"]).snap =
      [("root-0", true)] ∧
    (ctrlStep true treeC2 ""
        [("root-0", false), ("root-0-0", false)] [("root-0", true)]).toggles =
      ["root-0", "root-0-0"] ∧
    emTruthy [("root-0", false), ("root-0-0", false)] "root-0-0" = false ∧
    emTruthy [("root-0", true)] "root-0-0" = false :=
  ⟨rfl, rfl, rfl, rfl, rfl⟩

end Pagos
